import Mathlib

/-!
# Verification of `matrixmethod/elements.py`

A shallow embedding of the `Element` class of `src/matrixmethod/elements.py`,
a 2D beam-column finite element combining axial extension and Euler-Bernoulli
bending, together with proofs of the specified properties.

Modelling conventions:
* `numpy` floating-point arithmetic is modelled over `ℚ` (exact field
  arithmetic), keeping every definition executable.
* The constructor computes `L = sqrt(dx² + dz²)` and
  `alpha = atan2(-dz, dx)`, after which only `cos alpha = dx / L` and
  `sin alpha = -dz / L` are used (never `alpha` itself).  Since `sqrt` leaves
  `ℚ`, the embedding `mkElement` receives the length `L` as an argument and
  theorems carry the defining constraint `L² = dx² + dz²`, `0 < L`; the
  cosine and sine are then the exact rational values `dx / L` and `-dz / L`.
* Python attributes `EA`/`EI` are created only by `set_section`; an access
  before that raises `AttributeError`.  They are modelled as `Option ℚ`
  (`none` = attribute absent) and each method that reads them returns an
  `Option`, with `none` standing for the raised `AttributeError`.
* `Node.add_load` mutates the node's accumulated load; state is passed
  explicitly: the element owns its two node records and methods return the
  updated element.
-/

namespace MatrixMethod

/-- A structural node: position `(x, z)` and the accumulated applied load
(three components: axial force, transverse force, moment), mutated by
`Node.add_load`. -/
structure Node where
  x : ℚ
  z : ℚ
  loads : Fin 3 → ℚ
deriving DecidableEq

/-- `Node.add_load(v)`: accumulate a 3-component load vector onto the node. -/
def Node.add_load (nd : Node) (v : Fin 3 → ℚ) : Node :=
  { nd with loads := fun i => nd.loads i + v i }

/-- The 6×6 transformation matrix built in `Element.__init__`
(lines 73–78 of `elements.py`) from `c = cos alpha` and `s = sin alpha`:
two 2×2 rotation blocks on the translational DOF pairs of each node, identity
on the two rotational DOFs. -/
def mkT (c s : ℚ) : Matrix (Fin 6) (Fin 6) ℚ :=
  Matrix.of
    ![![c, -s, 0, 0, 0, 0],
      ![s, c, 0, 0, 0, 0],
      ![0, 0, 1, 0, 0, 0],
      ![0, 0, 0, c, -s, 0],
      ![0, 0, 0, s, c, 0],
      ![0, 0, 0, 0, 0, 1]]

/-- The element state: the two nodes, the length `L`, the transformation
matrix `T` (the source also stores `Tt = T.transpose`, recovered here as
`e.T.transpose`), section properties `EA`, `EI` (absent until `set_section`
is called), the currently stored local distributed load `q = (qx, qz)` and
the derived local lumped load vector. -/
structure Element where
  node1 : Node
  node2 : Node
  L : ℚ
  T : Matrix (Fin 6) (Fin 6) ℚ
  EA : Option ℚ
  EI : Option ℚ
  q : ℚ × ℚ
  local_element_load : Fin 6 → ℚ

/-- `Element.__init__(node1, node2)`: stores the nodes, the length `L`
(passed explicitly here, constrained in theorems by `L² = dx² + dz²`),
builds `T` from `cos alpha = dx / L`, `sin alpha = -dz / L`, and initialises
`q` and the lumped load vector to zero.  `EA` and `EI` are *not* set. -/
def mkElement (n1 n2 : Node) (L : ℚ) : Element :=
  { node1 := n1
    node2 := n2
    L := L
    T := mkT ((n2.x - n1.x) / L) (-(n2.z - n1.z) / L)
    EA := none
    EI := none
    q := (0, 0)
    local_element_load := fun _ => 0 }

/-- The `props` dictionary passed to `set_section`: each of the keys
`'EA'` and `'EI'` may be present or absent. -/
structure SectionProps where
  EA : Option ℚ
  EI : Option ℚ

/-- `Element.set_section(props)` (lines 100–107): sets `self.EA` to
`props['EA']` when the key is present and to `1e20` otherwise, and
independently likewise for `EI`. -/
def Element.set_section (e : Element) (props : SectionProps) : Element :=
  { e with
    EA := some (match props.EA with | some v => v | none => 10 ^ 20)
    EI := some (match props.EI with | some v => v | none => 10 ^ 20) }

/-- The local 6×6 stiffness matrix assembled in `Element.stiffness`
(lines 125–143): axial entries `±EA/L`, the Euler-Bernoulli bending block
on `(w1, φ1, w2, φ2)`, zeros elsewhere. -/
def kLocal (EA EI L : ℚ) : Matrix (Fin 6) (Fin 6) ℚ :=
  Matrix.of
    ![![EA / L, 0, 0, -EA / L, 0, 0],
      ![0, 12 * EI / L / L / L, -6 * EI / L / L, 0, -12 * EI / L / L / L, -6 * EI / L / L],
      ![0, -6 * EI / L / L, 4 * EI / L, 0, 6 * EI / L / L, 2 * EI / L],
      ![-EA / L, 0, 0, EA / L, 0, 0],
      ![0, -12 * EI / L / L / L, 6 * EI / L / L, 0, 12 * EI / L / L / L, 6 * EI / L / L],
      ![0, -6 * EI / L / L, 2 * EI / L, 0, 6 * EI / L / L, 4 * EI / L]]

/-- `Element.stiffness()` (lines 118–145): `Tᵀ · k · T` with `k = kLocal`;
reading the missing attributes `EA`/`EI` before `set_section` raises
`AttributeError`, modelled by `none`. -/
def Element.stiffness (e : Element) : Option (Matrix (Fin 6) (Fin 6) ℚ) :=
  match e.EA, e.EI with
  | some ea, some ei => some (e.T.transpose * kLocal ea ei e.L * e.T)
  | _, _ => none

/-- The local lumped load vector of `add_distributed_load` (line 161):
`[qx·l/2, qz·l/2, −qz·l²/12, qx·l/2, qz·l/2, qz·l²/12]`. -/
def lumpedLoad (l qx qz : ℚ) : Fin 6 → ℚ :=
  ![0.5 * qx * l, 0.5 * qz * l, -1 / 12 * qz * l * l,
    0.5 * qx * l, 0.5 * qz * l, 1 / 12 * qz * l * l]

/-- `Element.add_distributed_load(q)` (lines 147–166): stores `q`
(overwriting), recomputes the local lumped load vector, transforms it by
`Tᵀ` and accumulates the two halves onto the nodes via `Node.add_load`. -/
def Element.add_distributed_load (e : Element) (q : ℚ × ℚ) : Element :=
  let lv := lumpedLoad e.L q.1 q.2
  let gv := e.T.transpose.mulVec lv
  { e with
    q := q
    local_element_load := lv
    node1 := e.node1.add_load (fun i => gv ⟨i.val, by omega⟩)
    node2 := e.node2.add_load (fun i => gv ⟨i.val + 3, by omega⟩) }

/-- `np.linspace(0, l, num)`: station `i` of `num` equally spaced points
on `[0, l]` (for `num ≥ 2`; `numpy` returns `[0]` for `num = 1`, matched
here because `x / 0 = 0` in `ℚ`). -/
def station (l : ℚ) (num i : ℕ) : ℚ :=
  (i : ℚ) * l / ((num : ℚ) - 1)

/-- The closed-form bending-moment field of `Element.bending_moments`
(lines 193–195), as a function of the element data, the four local bending
DOFs and the position `x`. -/
def momentFormula (l q EI w1 phi1 w2 phi2 x : ℚ) : ℚ :=
  (-l ^ 5 * q + 6 * l ^ 4 * q * x
      - 6 * q * x * x * l ^ 3 - 48 * (phi1 + phi2 / 2) * EI * l ^ 2
      + 72 * EI * ((phi1 + phi2) * x + w1 - w2) * l - 144 * x * EI * (w1 - w2)) / 12 / l ^ 3

/-- `Element.bending_moments(u_global, num_points)` (lines 168–197):
rotates the global slice into local coordinates, reads `w1, φ1, w2, φ2`,
and evaluates `momentFormula` at the `num_points` linspace stations.
Reading the missing attribute `EI` raises `AttributeError` (`none`). -/
def Element.bending_moments (e : Element) (u_global : Fin 6 → ℚ) (num_points : ℕ) :
    Option (Fin num_points → ℚ) :=
  match e.EI with
  | some ei =>
      let ld := e.T.mulVec u_global
      some fun i => momentFormula e.L e.q.2 ei (ld 1) (ld 2) (ld 4) (ld 5) (station e.L num_points i.val)
  | none => none

/-- The axial displacement field of `Element.full_displacement` (line 227). -/
def uFieldFormula (L qx EA u1 u2 x : ℚ) : ℚ :=
  qx * (-L * x / (2 * EA) + x ^ 2 / (2 * EA)) + u1 * (1 - x / L) + u2 * (x / L)

/-- The transverse displacement field of `Element.full_displacement`
(line 228): cubic Hermite interpolation of `(w1, φ1, w2, φ2)` plus the
quartic particular solution driven by the constant transverse load `q`. -/
def wFieldFormula (L q EI w1 phi1 w2 phi2 x : ℚ) : ℚ :=
  phi1 * (-x + 2 * x ^ 2 / L - x ^ 3 / L ^ 2) + phi2 * (x ^ 2 / L - x ^ 3 / L ^ 2)
    + q * (L ^ 2 * x ^ 2 / (24 * EI) - L * x ^ 3 / (12 * EI) + x ^ 4 / (24 * EI))
    + w1 * (1 - 3 * x ^ 2 / L ^ 2 + 2 * x ^ 3 / L ^ 3)
    + w2 * (3 * x ^ 2 / L ^ 2 - 2 * x ^ 3 / L ^ 3)

/-- `Element.full_displacement(u_global, num_points)` (lines 199–230):
rotates the global slice into local coordinates and evaluates the axial and
transverse displacement fields at the linspace stations.  Reading the
missing attributes `EA`/`EI` raises `AttributeError` (`none`). -/
def Element.full_displacement (e : Element) (u_global : Fin 6 → ℚ) (num_points : ℕ) :
    Option ((Fin num_points → ℚ) × (Fin num_points → ℚ)) :=
  match e.EA, e.EI with
  | some ea, some ei =>
      let ul := e.T.mulVec u_global
      some
        (fun i => uFieldFormula e.L e.q.1 ea (ul 0) (ul 3) (station e.L num_points i.val),
         fun i => wFieldFormula e.L e.q.2 ei (ul 1) (ul 2) (ul 4) (ul 5) (station e.L num_points i.val))
  | _, _ => none

/-- The three local rigid-body modes of the two-node element on the local
DOFs `[u1, w1, φ1, u2, w2, φ2]`: axial translation, transverse translation,
and rotation about node 2 (both nodes rotate by `1`, node 1 translates by
`L` transversally). -/
def localRigidBasis (L : ℚ) : Fin 3 → (Fin 6 → ℚ) :=
  ![![1, 0, 0, 1, 0, 0], ![0, 1, 0, 0, 1, 0], ![0, L, 1, 0, 0, 1]]

/-- The rigid-body modes expressed on the global DOFs: `Tᵀ` maps local
displacement vectors back to global ones. -/
def rigidBasis (e : Element) : Fin 3 → (Fin 6 → ℚ) :=
  fun i => e.T.transpose.mulVec (localRigidBasis e.L i)

/-- A combined rigid-body displacement of the two nodes in local
coordinates: translation `(tx, tz)` plus (linearised) rotation by `th`
about node 1, which displaces node 2 transversally by `-th·L`. -/
def localRigid (L tx tz th : ℚ) : Fin 6 → ℚ :=
  ![tx, tz, th, tx, tz - th * L, th]

/-- Modelled from the spec: the cubic Hermite interpolant of the nodal
transverse values `(w1, φ1, w2, φ2)` on `[0, L]` — the displacement-driven
part of the transverse field `wFieldFormula` of `full_displacement`, as a
function of the position `x` (so that its second derivative, the curvature,
is available through `deriv`; `ℚ` is a normed field, so `deriv` is the
ordinary calculus derivative). -/
def hermiteInterpolant (L w1 phi1 w2 phi2 : ℚ) : ℚ → ℚ := fun x =>
  phi1 * (-x + 2 * x ^ 2 / L - x ^ 3 / L ^ 2) + phi2 * (x ^ 2 / L - x ^ 3 / L ^ 2)
    + w1 * (1 - 3 * x ^ 2 / L ^ 2 + 2 * x ^ 3 / L ^ 3)
    + w2 * (3 * x ^ 2 / L ^ 2 - 2 * x ^ 3 / L ^ 3)

/-- A concrete node at the origin carrying no load. -/
def node_a : Node := ⟨0, 0, fun _ => 0⟩

/-- A concrete node at `(5, 0)` carrying no load. -/
def node_b : Node := ⟨5, 0, fun _ => 0⟩

/-- The concrete element of the spec's scenario: nodes `(0,0)` and `(5,0)`
(so `L = 5 = √((5-0)² + (0-0)²)`), `EA = 1e7`, `EI = 2e5`, no distributed
load. -/
def sampleElem : Element :=
  (mkElement node_a node_b 5).set_section ⟨some (10 ^ 7), some (2 * 10 ^ 5)⟩

/-- The global stiffness matrix of `sampleElem`, written out as the
congruence transform of the local matrix. -/
def sampleStiff : Matrix (Fin 6) (Fin 6) ℚ :=
  (mkT 1 0).transpose * kLocal (10 ^ 7) (2 * 10 ^ 5) 5 * mkT 1 0

/-- A unit transverse displacement at node 2, all other global DOFs zero. -/
def unitW : Fin 6 → ℚ := ![0, 0, 0, 0, 1, 0]

/-! ## Basic helper lemmas -/

theorem vec6_zero {α : Type*} (a b c d e f : α) : ![a, b, c, d, e, f] 0 = a := rfl

theorem vec6_one {α : Type*} (a b c d e f : α) : ![a, b, c, d, e, f] 1 = b := rfl

theorem vec6_two {α : Type*} (a b c d e f : α) : ![a, b, c, d, e, f] 2 = c := rfl

theorem vec6_three {α : Type*} (a b c d e f : α) : ![a, b, c, d, e, f] 3 = d := rfl

theorem vec6_four {α : Type*} (a b c d e f : α) : ![a, b, c, d, e, f] 4 = e := rfl

theorem vec6_five {α : Type*} (a b c d e f : α) : ![a, b, c, d, e, f] 5 = f := rfl

theorem vec6_mk0 {α : Type*} (a b c d e f : α) (h : (0 : ℕ) < 6) :
    ![a, b, c, d, e, f] ⟨0, h⟩ = a := rfl

theorem vec6_mk1 {α : Type*} (a b c d e f : α) (h : (1 : ℕ) < 6) :
    ![a, b, c, d, e, f] ⟨1, h⟩ = b := rfl

theorem vec6_mk2 {α : Type*} (a b c d e f : α) (h : (2 : ℕ) < 6) :
    ![a, b, c, d, e, f] ⟨2, h⟩ = c := rfl

theorem vec6_mk3 {α : Type*} (a b c d e f : α) (h : (3 : ℕ) < 6) :
    ![a, b, c, d, e, f] ⟨3, h⟩ = d := rfl

theorem vec6_mk4 {α : Type*} (a b c d e f : α) (h : (4 : ℕ) < 6) :
    ![a, b, c, d, e, f] ⟨4, h⟩ = e := rfl

theorem vec6_mk5 {α : Type*} (a b c d e f : α) (h : (5 : ℕ) < 6) :
    ![a, b, c, d, e, f] ⟨5, h⟩ = f := rfl

/-- The transformation matrix of a unit direction `(c, s)` is orthogonal. -/
theorem mkT_mul_transpose (c s : ℚ) (h : c ^ 2 + s ^ 2 = 1) :
    mkT c s * (mkT c s).transpose = 1 := by
  ext i j
  fin_cases i <;> fin_cases j <;>
    simp only [Matrix.mul_apply, Fin.sum_univ_six, mkT, Matrix.of_apply,
      Matrix.transpose_apply, vec6_zero, vec6_one, vec6_two, vec6_three, vec6_four,
      vec6_five, vec6_mk0, vec6_mk1, vec6_mk2, vec6_mk3, vec6_mk4, vec6_mk5,
      Matrix.one_apply, Fin.mk.injEq] <;>
    norm_num <;>
    first
    | linear_combination h
    | ring

/-- The transformation matrix of a horizontal element is the identity. -/
theorem mkT_one : mkT 1 0 = 1 := by
  decide

/-! ## Basic frame lemmas -/

/-- `add_distributed_load` leaves the geometric and section state alone. -/
theorem add_distributed_load_frame (e : Element) (q : ℚ × ℚ) :
    (e.add_distributed_load q).L = e.L ∧ (e.add_distributed_load q).T = e.T ∧
      (e.add_distributed_load q).EA = e.EA ∧ (e.add_distributed_load q).EI = e.EI :=
  ⟨rfl, rfl, rfl, rfl⟩

/-- The lumped load vector of line 161, rewritten with the divisions of the
natural-language description. -/
theorem lumpedLoad_eq (l qx qz : ℚ) :
    lumpedLoad l qx qz =
      ![qx * l / 2, qz * l / 2, -(qz * l ^ 2 / 12),
        qx * l / 2, qz * l / 2, qz * l ^ 2 / 12] := by
  funext i
  fin_cases i <;> · show _ = _; norm_num [lumpedLoad]; try ring

/-! ## C9: `set_section` is total, defaults each property independently -/

/-- C9: for every props dictionary, `set_section` succeeds, sets `EA` to
`props['EA']` when present and to the rigidity sentinel `1e20` otherwise,
independently likewise for `EI`, and mutates no other element state. -/
theorem set_section_spec (e : Element) (props : SectionProps) :
    (e.set_section props).EA = some (props.EA.getD (10 ^ 20)) ∧
      (e.set_section props).EI = some (props.EI.getD (10 ^ 20)) ∧
      (e.set_section props).node1 = e.node1 ∧
      (e.set_section props).node2 = e.node2 ∧
      (e.set_section props).L = e.L ∧
      (e.set_section props).T = e.T ∧
      (e.set_section props).q = e.q ∧
      (e.set_section props).local_element_load = e.local_element_load := by
  obtain ⟨pea, pei⟩ := props
  refine ⟨?_, ?_, rfl, rfl, rfl, rfl, rfl, rfl⟩ <;> cases pea <;> cases pei <;> rfl

/-! ## C10: section properties absent before `set_section` -/

/-- C10: a freshly constructed element has no `EA`/`EI` attributes, so
`stiffness`, `bending_moments` and `full_displacement` all fail with an
attribute error (`none`) instead of falling back to the sentinel. -/
theorem fresh_element_has_no_section (n1 n2 : Node) (L : ℚ) (u : Fin 6 → ℚ)
    (num_points : ℕ) :
    (mkElement n1 n2 L).EA = none ∧ (mkElement n1 n2 L).EI = none ∧
      (mkElement n1 n2 L).stiffness = none ∧
      (mkElement n1 n2 L).bending_moments u num_points = none ∧
      (mkElement n1 n2 L).full_displacement u num_points = none :=
  ⟨rfl, rfl, rfl, rfl, rfl⟩

/-! ## C4: distributed-load lumping -/

/-- C4: `add_distributed_load (qx, qz)` stores the local lumped vector
`[qx·L/2, qz·L/2, −qz·L²/12, qx·L/2, qz·L/2, qz·L²/12]`, transforms it by
`Tᵀ` and adds the first three entries to node1's accumulated load, the last
three to node2's; the two transverse forces sum to the total load `qz·L`
and the end moments are opposite. -/
theorem add_distributed_load_spec (e : Element) (qx qz : ℚ) :
    (e.add_distributed_load (qx, qz)).local_element_load =
        ![qx * e.L / 2, qz * e.L / 2, -(qz * e.L ^ 2 / 12),
          qx * e.L / 2, qz * e.L / 2, qz * e.L ^ 2 / 12] ∧
      (e.add_distributed_load (qx, qz)).node1.loads = (fun i : Fin 3 =>
        e.node1.loads i +
          e.T.transpose.mulVec
            ![qx * e.L / 2, qz * e.L / 2, -(qz * e.L ^ 2 / 12),
              qx * e.L / 2, qz * e.L / 2, qz * e.L ^ 2 / 12] ⟨i.val, by omega⟩) ∧
      (e.add_distributed_load (qx, qz)).node2.loads = (fun i : Fin 3 =>
        e.node2.loads i +
          e.T.transpose.mulVec
            ![qx * e.L / 2, qz * e.L / 2, -(qz * e.L ^ 2 / 12),
              qx * e.L / 2, qz * e.L / 2, qz * e.L ^ 2 / 12] ⟨i.val + 3, by omega⟩) ∧
      (e.add_distributed_load (qx, qz)).local_element_load 1 +
          (e.add_distributed_load (qx, qz)).local_element_load 4 = qz * e.L ∧
      (e.add_distributed_load (qx, qz)).local_element_load 2 =
        -((e.add_distributed_load (qx, qz)).local_element_load 5) := by
  have hl : (e.add_distributed_load (qx, qz)).local_element_load =
      ![qx * e.L / 2, qz * e.L / 2, -(qz * e.L ^ 2 / 12),
        qx * e.L / 2, qz * e.L / 2, qz * e.L ^ 2 / 12] := by
    show lumpedLoad e.L qx qz = _
    exact lumpedLoad_eq e.L qx qz
  refine ⟨hl, ?_, ?_, ?_, ?_⟩
  · simp only [Element.add_distributed_load, Node.add_load, lumpedLoad_eq]
  · simp only [Element.add_distributed_load, Node.add_load, lumpedLoad_eq]
  · rw [hl]
    simp only [vec6_one, vec6_four]
    ring
  · rw [hl]
    simp only [vec6_two, vec6_five]

/-! ## C8: last-write-wins for the element, additive on the nodes -/

/-- C8: after any non-empty sequence of `add_distributed_load` calls, the
element's stored `q` and local lumped load vector are those of the last
call alone, while every call's transformed lumped loads remain accumulated
on the two nodes. -/
theorem add_distributed_load_sequence (e : Element) (qs : List (ℚ × ℚ)) (h : qs ≠ []) :
    (qs.foldl Element.add_distributed_load e).q = qs.getLast h ∧
      (qs.foldl Element.add_distributed_load e).local_element_load =
        lumpedLoad e.L (qs.getLast h).1 (qs.getLast h).2 ∧
      (qs.foldl Element.add_distributed_load e).node1.loads = (fun i : Fin 3 =>
        e.node1.loads i +
          (qs.map fun p =>
            e.T.transpose.mulVec (lumpedLoad e.L p.1 p.2) ⟨i.val, by omega⟩).sum) ∧
      (qs.foldl Element.add_distributed_load e).node2.loads = (fun i : Fin 3 =>
        e.node2.loads i +
          (qs.map fun p =>
            e.T.transpose.mulVec (lumpedLoad e.L p.1 p.2) ⟨i.val + 3, by omega⟩).sum) := by
  induction qs generalizing e with
  | nil => exact absurd rfl h
  | cons p qs ih =>
    cases qs with
    | nil =>
      refine ⟨rfl, rfl, ?_, ?_⟩ <;>
        · funext i
          simp [Element.add_distributed_load, Node.add_load]
    | cons p2 qs2 =>
      have hne : (p2 :: qs2 : List (ℚ × ℚ)) ≠ [] := List.cons_ne_nil _ _
      obtain ⟨h1, h2, h3, h4⟩ := ih (e.add_distributed_load p) hne
      have hgl : (p :: p2 :: qs2).getLast h = (p2 :: qs2).getLast hne := List.getLast_cons hne
      refine ⟨?_, ?_, ?_, ?_⟩
      · rw [List.foldl_cons, h1, hgl]
      · rw [List.foldl_cons, h2, hgl]; rfl
      · rw [List.foldl_cons, h3]
        funext i
        simp [Element.add_distributed_load, Node.add_load]
        ring
      · rw [List.foldl_cons, h4]
        funext i
        simp [Element.add_distributed_load, Node.add_load]
        ring

/-- Witness for C8 at a concrete element and a two-call sequence. -/
theorem add_distributed_load_sequence_witness :
    ([((1 : ℚ), (2 : ℚ)), ((3 : ℚ), (4 : ℚ))] ≠ ([] : List (ℚ × ℚ))) ∧
      (([((1 : ℚ), (2 : ℚ)), ((3 : ℚ), (4 : ℚ))].foldl Element.add_distributed_load
          sampleElem).q = ((3 : ℚ), (4 : ℚ))) :=
  ⟨by simp,
    by simpa using
      (add_distributed_load_sequence sampleElem [(1, 2), (3, 4)] (by simp)).1⟩

/-! ## C7: orthogonality of the transformation, horizontal case -/

/-- C7: for any two non-coincident node positions, the transformation
matrix built at construction satisfies `T·Tᵀ = 1`; for a horizontal element
(`α = 0`, i.e. same `z` and `node2` to the right of `node1`), `T` is the
identity and `stiffness()` equals the local stiffness matrix exactly. -/
theorem transformation_orthogonal (n1 n2 : Node) (L ea ei : ℚ) (hL : 0 < L)
    (hgeom : L ^ 2 = (n2.x - n1.x) ^ 2 + (n2.z - n1.z) ^ 2) :
    ((mkElement n1 n2 L).set_section ⟨some ea, some ei⟩).T *
        ((mkElement n1 n2 L).set_section ⟨some ea, some ei⟩).T.transpose = 1 ∧
      (n1.z = n2.z → n1.x < n2.x →
        ((mkElement n1 n2 L).set_section ⟨some ea, some ei⟩).T = 1 ∧
        ((mkElement n1 n2 L).set_section ⟨some ea, some ei⟩).stiffness =
          some (kLocal ea ei L)) := by
  have hL' : L ≠ 0 := ne_of_gt hL
  constructor
  · show mkT ((n2.x - n1.x) / L) (-(n2.z - n1.z) / L) *
      (mkT ((n2.x - n1.x) / L) (-(n2.z - n1.z) / L)).transpose = 1
    apply mkT_mul_transpose
    field_simp
    linarith [hgeom]
  · intro hz hx
    have hdz : n2.z - n1.z = 0 := by rw [← hz]; exact sub_self _
    have hsq : L ^ 2 = (n2.x - n1.x) ^ 2 := by rw [hgeom, hdz]; ring
    have h1 : (L - (n2.x - n1.x)) * (L + (n2.x - n1.x)) = 0 := by linear_combination hsq
    have h2 : 0 < L + (n2.x - n1.x) := by have := sub_pos.mpr hx; linarith
    have hLdx : L = n2.x - n1.x := by
      rcases mul_eq_zero.mp h1 with h' | h'
      · linarith
      · linarith
    have hc : (n2.x - n1.x) / L = 1 := by rw [← hLdx]; exact div_self hL'
    have hs : -(n2.z - n1.z) / L = 0 := by rw [hdz]; simp
    have hT1 : ((mkElement n1 n2 L).set_section ⟨some ea, some ei⟩).T = 1 := by
      show mkT ((n2.x - n1.x) / L) (-(n2.z - n1.z) / L) = 1
      rw [hc, hs]
      exact mkT_one
    refine ⟨hT1, ?_⟩
    show some (((mkElement n1 n2 L).set_section ⟨some ea, some ei⟩).T.transpose *
      kLocal ea ei L * ((mkElement n1 n2 L).set_section ⟨some ea, some ei⟩).T) = _
    rw [hT1]
    simp

/-- Witness for C7 at the concrete horizontal element `sampleElem`. -/
theorem transformation_orthogonal_witness :
    (0 : ℚ) < 5 ∧
      (5 : ℚ) ^ 2 = (node_b.x - node_a.x) ^ 2 + (node_b.z - node_a.z) ^ 2 ∧
      sampleElem.T * sampleElem.T.transpose = 1 ∧
      sampleElem.T = 1 ∧
      sampleElem.stiffness = some (kLocal (10 ^ 7) (2 * 10 ^ 5) 5) := by
  have h := transformation_orthogonal node_a node_b 5 (10 ^ 7) (2 * 10 ^ 5)
    (by norm_num) (by norm_num [node_a, node_b])
  exact ⟨by norm_num, by norm_num [node_a, node_b], h.1,
    (h.2 rfl (by norm_num [node_a, node_b])).1,
    (h.2 rfl (by norm_num [node_a, node_b])).2⟩

/-! ## C1: structure of the stiffness matrix -/

/-- C1: with section properties set, `stiffness()` returns `Tᵀ·k·T` where
the local matrix `k` has axial entries `±EA/L`, bending diagonal
`12EI/L³` (transverse) and `4EI/L` (rotation), the cubic-Hermite cross
terms of magnitude `12EI/L³`, `6EI/L²` and `2EI/L`, and zeros elsewhere. -/
theorem stiffness_formula (e : Element) (ea ei : ℚ) (hEA : e.EA = some ea)
    (hEI : e.EI = some ei) (hei : 0 < ei) (hL : 0 < e.L) :
    e.stiffness = some (e.T.transpose * kLocal ea ei e.L * e.T) ∧
      kLocal ea ei e.L =
        Matrix.of
          ![![ea / e.L, 0, 0, -(ea / e.L), 0, 0],
            ![0, 12 * ei / e.L ^ 3, -(6 * ei / e.L ^ 2), 0, -(12 * ei / e.L ^ 3),
              -(6 * ei / e.L ^ 2)],
            ![0, -(6 * ei / e.L ^ 2), 4 * ei / e.L, 0, 6 * ei / e.L ^ 2, 2 * ei / e.L],
            ![-(ea / e.L), 0, 0, ea / e.L, 0, 0],
            ![0, -(12 * ei / e.L ^ 3), 6 * ei / e.L ^ 2, 0, 12 * ei / e.L ^ 3,
              6 * ei / e.L ^ 2],
            ![0, -(6 * ei / e.L ^ 2), 2 * ei / e.L, 0, 6 * ei / e.L ^ 2, 4 * ei / e.L]] ∧
      |kLocal ea ei e.L 1 4| = 12 * ei / e.L ^ 3 ∧
      |kLocal ea ei e.L 1 2| = 6 * ei / e.L ^ 2 ∧
      |kLocal ea ei e.L 2 5| = 2 * ei / e.L := by
  have hL' : e.L ≠ 0 := ne_of_gt hL
  refine ⟨?_, ?_, ?_, ?_, ?_⟩
  · simp only [Element.stiffness, hEA, hEI]
  · ext i j
    fin_cases i <;> fin_cases j <;>
      simp only [kLocal, Matrix.of_apply, vec6_zero, vec6_one, vec6_two, vec6_three,
        vec6_four, vec6_five, vec6_mk0, vec6_mk1, vec6_mk2, vec6_mk3, vec6_mk4,
        vec6_mk5] <;>
      first
      | rfl
      | (field_simp; try ring)
  · have hv : kLocal ea ei e.L 1 4 = -(12 * ei / e.L ^ 3) := by
      show -12 * ei / e.L / e.L / e.L = _
      field_simp
      ring
    rw [hv, abs_neg, abs_of_pos (by positivity)]
  · have hv : kLocal ea ei e.L 1 2 = -(6 * ei / e.L ^ 2) := by
      show -6 * ei / e.L / e.L = _
      field_simp
      ring
    rw [hv, abs_neg, abs_of_pos (by positivity)]
  · have hv : kLocal ea ei e.L 2 5 = 2 * ei / e.L := rfl
    rw [hv, abs_of_pos (by positivity)]

/-- Witness for C1 at the concrete element `sampleElem`. -/
theorem stiffness_formula_witness :
    sampleElem.EA = some (10 ^ 7) ∧ (0 : ℚ) < 2 * 10 ^ 5 ∧ (0 : ℚ) < sampleElem.L ∧
      sampleElem.stiffness =
        some (sampleElem.T.transpose * kLocal (10 ^ 7) (2 * 10 ^ 5) sampleElem.L *
          sampleElem.T) :=
  ⟨rfl, by norm_num, by show (0 : ℚ) < 5; norm_num,
    (stiffness_formula sampleElem (10 ^ 7) (2 * 10 ^ 5) rfl rfl (by norm_num)
      (by show (0 : ℚ) < 5; norm_num)).1⟩

/-! ## C3: endpoint exactness of `full_displacement` -/

/-- C3: for positive section properties and length and at least two
stations, the arrays returned by `full_displacement` reproduce the exact
local nodal values at the first (`x = 0`) and last (`x = L`) stations:
`u` starts at `u1` and ends at `u2`, `w` starts at `w1` and ends at `w2`,
where the local values are the global slice rotated through `T`. -/
theorem full_displacement_endpoints (e : Element) (ea ei : ℚ) (u : Fin 6 → ℚ) (n : ℕ)
    (hEA : e.EA = some ea) (hEI : e.EI = some ei) (hea : 0 < ea) (hei : 0 < ei)
    (hL : 0 < e.L) (hn : 2 ≤ n) :
    ∃ uArr wArr, e.full_displacement u n = some (uArr, wArr) ∧
      uArr ⟨0, by omega⟩ = e.T.mulVec u 0 ∧
      uArr ⟨n - 1, by omega⟩ = e.T.mulVec u 3 ∧
      wArr ⟨0, by omega⟩ = e.T.mulVec u 1 ∧
      wArr ⟨n - 1, by omega⟩ = e.T.mulVec u 4 := by
  have hL' : e.L ≠ 0 := ne_of_gt hL
  have hea' : ea ≠ 0 := ne_of_gt hea
  have hnn : ((n : ℚ) - 1) ≠ 0 := by
    have h2 : (2 : ℚ) ≤ (n : ℚ) := by exact_mod_cast hn
    intro hcon
    linarith
  have hst0 : station e.L n 0 = 0 := by simp [station]
  have hstL : station e.L n (n - 1) = e.L := by
    unfold station
    rw [Nat.cast_sub (by omega : 1 ≤ n)]
    rw [Nat.cast_one, mul_comm, mul_div_assoc, div_self hnn, mul_one]
  refine ⟨fun i => uFieldFormula e.L e.q.1 ea (e.T.mulVec u 0) (e.T.mulVec u 3)
      (station e.L n i.val),
    fun i => wFieldFormula e.L e.q.2 ei (e.T.mulVec u 1) (e.T.mulVec u 2)
      (e.T.mulVec u 4) (e.T.mulVec u 5) (station e.L n i.val),
    ?_, ?_, ?_, ?_, ?_⟩
  · simp only [Element.full_displacement, hEA, hEI]
  · show uFieldFormula e.L e.q.1 ea _ _ (station e.L n 0) = _
    rw [hst0]
    simp [uFieldFormula]
  · show uFieldFormula e.L e.q.1 ea _ _ (station e.L n (n - 1)) = _
    rw [hstL]
    unfold uFieldFormula
    field_simp
    ring
  · show wFieldFormula e.L e.q.2 ei _ _ _ _ (station e.L n 0) = _
    rw [hst0]
    simp [wFieldFormula]
  · show wFieldFormula e.L e.q.2 ei _ _ _ _ (station e.L n (n - 1)) = _
    rw [hstL]
    unfold wFieldFormula
    field_simp
    ring

/-- Witness for C3 at the concrete element `sampleElem` with two stations. -/
theorem full_displacement_endpoints_witness :
    ∃ uArr wArr, sampleElem.full_displacement ![1, 2, 3, 4, 5, 6] 2 = some (uArr, wArr) ∧
      uArr ⟨0, by omega⟩ = sampleElem.T.mulVec ![1, 2, 3, 4, 5, 6] 0 ∧
      uArr ⟨2 - 1, by omega⟩ = sampleElem.T.mulVec ![1, 2, 3, 4, 5, 6] 3 ∧
      wArr ⟨0, by omega⟩ = sampleElem.T.mulVec ![1, 2, 3, 4, 5, 6] 1 ∧
      wArr ⟨2 - 1, by omega⟩ = sampleElem.T.mulVec ![1, 2, 3, 4, 5, 6] 4 :=
  full_displacement_endpoints sampleElem (10 ^ 7) (2 * 10 ^ 5) ![1, 2, 3, 4, 5, 6] 2
    rfl rfl (by norm_num) (by norm_num) (by show (0 : ℚ) < 5; norm_num) (by norm_num)

/-! ## C2: bending moments are the Hermite curvature moments when q = 0 -/

/-- Derivative of a cubic, used to differentiate the Hermite interpolant. -/
theorem cubic_hasDerivAt (a0 a1 a2 a3 x : ℚ) :
    HasDerivAt (fun y : ℚ => a0 + a1 * y + a2 * y ^ 2 + a3 * y ^ 3)
      (a1 + 2 * a2 * x + 3 * a3 * x ^ 2) x := by
  have h0 : HasDerivAt (fun _ : ℚ => a0) 0 x := hasDerivAt_const x a0
  have h1 : HasDerivAt (fun y : ℚ => a1 * y) a1 x := by
    simpa using (hasDerivAt_id x).const_mul a1
  have h2 : HasDerivAt (fun y : ℚ => a2 * y ^ 2) (a2 * (2 * x)) x := by
    simpa using (hasDerivAt_pow 2 x).const_mul a2
  have h3 : HasDerivAt (fun y : ℚ => a3 * y ^ 3) (a3 * (3 * x ^ 2)) x := by
    simpa using (hasDerivAt_pow 3 x).const_mul a3
  have h := ((h0.add h1).add h2).add h3
  convert h using 1
  ring

/-- Derivative of a quadratic, used for the second derivative. -/
theorem quadratic_hasDerivAt (a0 a1 a2 x : ℚ) :
    HasDerivAt (fun y : ℚ => a0 + a1 * y + a2 * y ^ 2) (a1 + 2 * a2 * x) x := by
  have h0 : HasDerivAt (fun _ : ℚ => a0) 0 x := hasDerivAt_const x a0
  have h1 : HasDerivAt (fun y : ℚ => a1 * y) a1 x := by
    simpa using (hasDerivAt_id x).const_mul a1
  have h2 : HasDerivAt (fun y : ℚ => a2 * y ^ 2) (a2 * (2 * x)) x := by
    simpa using (hasDerivAt_pow 2 x).const_mul a2
  have h := (h0.add h1).add h2
  convert h using 1
  ring

/-- The Hermite interpolant written as a cubic in the position. -/
theorem hermite_eq_cubic (L w1 p1 w2 p2 : ℚ) :
    hermiteInterpolant L w1 p1 w2 p2 = fun x : ℚ =>
      w1 + -p1 * x + (2 * p1 / L + p2 / L - 3 * w1 / L ^ 2 + 3 * w2 / L ^ 2) * x ^ 2
        + (-(p1 / L ^ 2) - p2 / L ^ 2 + 2 * w1 / L ^ 3 - 2 * w2 / L ^ 3) * x ^ 3 := by
  funext x
  unfold hermiteInterpolant
  ring

/-- First derivative of the Hermite interpolant. -/
theorem hermite_deriv (L w1 p1 w2 p2 : ℚ) :
    deriv (hermiteInterpolant L w1 p1 w2 p2) = fun x : ℚ =>
      -p1 + 2 * (2 * p1 / L + p2 / L - 3 * w1 / L ^ 2 + 3 * w2 / L ^ 2) * x
        + 3 * (-(p1 / L ^ 2) - p2 / L ^ 2 + 2 * w1 / L ^ 3 - 2 * w2 / L ^ 3) * x ^ 2 := by
  funext x
  rw [hermite_eq_cubic]
  exact (cubic_hasDerivAt w1 (-p1) (2 * p1 / L + p2 / L - 3 * w1 / L ^ 2 + 3 * w2 / L ^ 2)
    (-(p1 / L ^ 2) - p2 / L ^ 2 + 2 * w1 / L ^ 3 - 2 * w2 / L ^ 3) x).deriv

/-- Second derivative (curvature) of the Hermite interpolant. -/
theorem hermite_deriv2 (L w1 p1 w2 p2 x : ℚ) :
    deriv (deriv (hermiteInterpolant L w1 p1 w2 p2)) x =
      2 * (2 * p1 / L + p2 / L - 3 * w1 / L ^ 2 + 3 * w2 / L ^ 2)
        + 2 * (3 * (-(p1 / L ^ 2) - p2 / L ^ 2 + 2 * w1 / L ^ 3 - 2 * w2 / L ^ 3)) * x := by
  rw [hermite_deriv]
  exact (quadratic_hasDerivAt (-p1)
    (2 * (2 * p1 / L + p2 / L - 3 * w1 / L ^ 2 + 3 * w2 / L ^ 2))
    (3 * (-(p1 / L ^ 2) - p2 / L ^ 2 + 2 * w1 / L ^ 3 - 2 * w2 / L ^ 3)) x).deriv

/-- C2: with the stored transverse load zero, the value `bending_moments`
produces at every station equals the closed-form moment `-EI·w''(x)` of the
cubic Hermite interpolant of the local `(w1, φ1, w2, φ2)`, and that
interpolant is exactly the transverse field `full_displacement` evaluates
(its `wFieldFormula` with `q = 0`), at every position `x`. -/
theorem bending_moments_hermite (e : Element) (ei : ℚ) (u : Fin 6 → ℚ) (n : ℕ)
    (hq : e.q.2 = 0) (hEI : e.EI = some ei) (hL : 0 < e.L) :
    ∃ M, e.bending_moments u n = some M ∧
      (∀ i : Fin n,
        M i = -ei * deriv (deriv (hermiteInterpolant e.L (e.T.mulVec u 1) (e.T.mulVec u 2)
          (e.T.mulVec u 4) (e.T.mulVec u 5))) (station e.L n i.val)) ∧
      (∀ x : ℚ,
        wFieldFormula e.L e.q.2 ei (e.T.mulVec u 1) (e.T.mulVec u 2) (e.T.mulVec u 4)
            (e.T.mulVec u 5) x =
          hermiteInterpolant e.L (e.T.mulVec u 1) (e.T.mulVec u 2) (e.T.mulVec u 4)
            (e.T.mulVec u 5) x) := by
  have hL' : e.L ≠ 0 := ne_of_gt hL
  refine ⟨fun i => momentFormula e.L e.q.2 ei (e.T.mulVec u 1) (e.T.mulVec u 2)
      (e.T.mulVec u 4) (e.T.mulVec u 5) (station e.L n i.val), ?_, ?_, ?_⟩
  · simp only [Element.bending_moments, hEI]
  · intro i
    rw [hq, hermite_deriv2]
    unfold momentFormula
    field_simp
    ring
  · intro x
    rw [hq]
    unfold wFieldFormula hermiteInterpolant
    ring

/-- Witness for C2 at the concrete unloaded element `sampleElem`. -/
theorem bending_moments_hermite_witness :
    ∃ M, sampleElem.bending_moments ![1, 2, 3, 4, 5, 6] 2 = some M ∧
      (∀ i : Fin 2,
        M i = -(2 * 10 ^ 5) * deriv (deriv (hermiteInterpolant sampleElem.L
          (sampleElem.T.mulVec ![1, 2, 3, 4, 5, 6] 1)
          (sampleElem.T.mulVec ![1, 2, 3, 4, 5, 6] 2)
          (sampleElem.T.mulVec ![1, 2, 3, 4, 5, 6] 4)
          (sampleElem.T.mulVec ![1, 2, 3, 4, 5, 6] 5)))
          (station sampleElem.L 2 i.val)) ∧
      (∀ x : ℚ,
        wFieldFormula sampleElem.L sampleElem.q.2 (2 * 10 ^ 5)
            (sampleElem.T.mulVec ![1, 2, 3, 4, 5, 6] 1)
            (sampleElem.T.mulVec ![1, 2, 3, 4, 5, 6] 2)
            (sampleElem.T.mulVec ![1, 2, 3, 4, 5, 6] 4)
            (sampleElem.T.mulVec ![1, 2, 3, 4, 5, 6] 5) x =
          hermiteInterpolant sampleElem.L
            (sampleElem.T.mulVec ![1, 2, 3, 4, 5, 6] 1)
            (sampleElem.T.mulVec ![1, 2, 3, 4, 5, 6] 2)
            (sampleElem.T.mulVec ![1, 2, 3, 4, 5, 6] 4)
            (sampleElem.T.mulVec ![1, 2, 3, 4, 5, 6] 5) x) :=
  bending_moments_hermite sampleElem (2 * 10 ^ 5) ![1, 2, 3, 4, 5, 6] 2
    rfl rfl (by show (0 : ℚ) < 5; norm_num)

/-! ## C6: the concrete 5-metre element -/

/-- The concrete element's transformation matrix is the identity rotation. -/
theorem sampleElem_T : sampleElem.T = mkT 1 0 := by
  show mkT ((5 - 0 : ℚ) / 5) (-(0 - 0 : ℚ) / 5) = mkT 1 0
  norm_num

/-- For the horizontal concrete element the congruence transform is trivial. -/
theorem sampleStiff_eq : sampleStiff = kLocal (10 ^ 7) (2 * 10 ^ 5) 5 := by
  unfold sampleStiff
  rw [mkT_one]
  simp

/-- `stiffness()` of the concrete element evaluates to `sampleStiff`. -/
theorem sampleElem_stiffness : sampleElem.stiffness = some sampleStiff := by
  show some (sampleElem.T.transpose * kLocal (10 ^ 7) (2 * 10 ^ 5) sampleElem.L *
    sampleElem.T) = some sampleStiff
  rw [sampleElem_T]
  rfl

/-- C6 counterexample: on the concrete element, the unit transverse
displacement at node 2 produces a *nonzero* rotational force response
(entry 2, the node-1 moment), contradicting the claimed absence of
off-axis rotational coupling. -/
theorem stiffness_rotation_coupling_cex :
    sampleElem.stiffness = some sampleStiff ∧ sampleStiff.mulVec unitW 2 ≠ 0 := by
  refine ⟨sampleElem_stiffness, ?_⟩
  rw [sampleStiff_eq]
  simp only [Matrix.mulVec, Matrix.dotProduct, Fin.sum_univ_six, kLocal, unitW,
    Matrix.of_apply, vec6_zero, vec6_one, vec6_two, vec6_three, vec6_four, vec6_five]
  norm_num

/-- C6 amended: the (node2-transverse, node2-transverse) stiffness entry is
`12·EI/L³ = 19200` and a unit transverse displacement at node 2 produces
zero *axial* force response at both nodes, while the *rotational* response
is `6·EI/L² = 48000` at both nodes (transverse-rotation coupling of the
bending block). -/
theorem stiffness_concrete_entries :
    sampleElem.stiffness = some sampleStiff ∧
      sampleStiff 4 4 = 19200 ∧ (19200 : ℚ) = 12 * (2 * 10 ^ 5) / 5 ^ 3 ∧
      sampleStiff.mulVec unitW 0 = 0 ∧ sampleStiff.mulVec unitW 3 = 0 ∧
      sampleStiff.mulVec unitW 2 = 48000 ∧ sampleStiff.mulVec unitW 5 = 48000 ∧
      (48000 : ℚ) = 6 * (2 * 10 ^ 5) / 5 ^ 2 := by
  refine ⟨sampleElem_stiffness, ?_, by norm_num, ?_, ?_, ?_, ?_, by norm_num⟩ <;>
    · rw [sampleStiff_eq]
      simp only [Matrix.mulVec, Matrix.dotProduct, Fin.sum_univ_six, kLocal, unitW,
        Matrix.of_apply, vec6_zero, vec6_one, vec6_two, vec6_three, vec6_four, vec6_five]
      norm_num

/-! ## C5: symmetry, positive semi-definiteness, rigid-body null space -/

theorem fin6_mk0 (h : (0 : ℕ) < 6) : (⟨0, h⟩ : Fin 6) = 0 := rfl

theorem fin6_mk1 (h : (1 : ℕ) < 6) : (⟨1, h⟩ : Fin 6) = 1 := rfl

theorem fin6_mk2 (h : (2 : ℕ) < 6) : (⟨2, h⟩ : Fin 6) = 2 := rfl

theorem fin6_mk3 (h : (3 : ℕ) < 6) : (⟨3, h⟩ : Fin 6) = 3 := rfl

theorem fin6_mk4 (h : (4 : ℕ) < 6) : (⟨4, h⟩ : Fin 6) = 4 := rfl

theorem fin6_mk5 (h : (5 : ℕ) < 6) : (⟨5, h⟩ : Fin 6) = 5 := rfl

theorem vec3_zero {α : Type*} (a b c : α) : ![a, b, c] 0 = a := rfl

theorem vec3_one {α : Type*} (a b c : α) : ![a, b, c] 1 = b := rfl

theorem vec3_two {α : Type*} (a b c : α) : ![a, b, c] 2 = c := rfl

theorem vec3_mk0 {α : Type*} (a b c : α) (h : (0 : ℕ) < 3) : ![a, b, c] ⟨0, h⟩ = a := rfl

theorem vec3_mk1 {α : Type*} (a b c : α) (h : (1 : ℕ) < 3) : ![a, b, c] ⟨1, h⟩ = b := rfl

theorem vec3_mk2 {α : Type*} (a b c : α) (h : (2 : ℕ) < 3) : ![a, b, c] ⟨2, h⟩ = c := rfl

/-- The local stiffness matrix is symmetric. -/
theorem kLocal_transpose (ea ei L : ℚ) : (kLocal ea ei L).transpose = kLocal ea ei L := by
  ext i j
  fin_cases i <;> fin_cases j <;> rfl

/-- Sum-of-squares form of the local stiffness quadratic form: axial
stretch, mean bending, and antisymmetric bending contributions. -/
theorem kLocal_quadform (ea ei L : ℚ) (hL : L ≠ 0) (y : Fin 6 → ℚ) :
    Matrix.dotProduct y ((kLocal ea ei L).mulVec y) =
      ea / L * (y 0 - y 3) ^ 2 + 3 * ei / L ^ 3 * (2 * (y 1 - y 4) - L * (y 2 + y 5)) ^ 2
        + ei / L * (y 2 - y 5) ^ 2 := by
  simp only [Matrix.dotProduct, Matrix.mulVec, Fin.sum_univ_six, kLocal, Matrix.of_apply,
    vec6_zero, vec6_one, vec6_two, vec6_three, vec6_four, vec6_five]
  field_simp
  ring

/-- Each local rigid-body mode is annihilated by the local stiffness. -/
theorem kLocal_mulVec_basis (ea ei L : ℚ) (hL : L ≠ 0) (i : Fin 3) :
    (kLocal ea ei L).mulVec (localRigidBasis L i) = 0 := by
  funext j
  fin_cases i <;> fin_cases j <;>
    simp only [Matrix.mulVec, Matrix.dotProduct, Fin.sum_univ_six, kLocal, localRigidBasis,
      Matrix.of_apply, vec6_zero, vec6_one, vec6_two, vec6_three, vec6_four, vec6_five,
      vec6_mk0, vec6_mk1, vec6_mk2, vec6_mk3, vec6_mk4, vec6_mk5, vec3_mk0, vec3_mk1,
      vec3_mk2, Pi.zero_apply] <;>
    first
    | ring1
    | (field_simp; ring1)

/-- A vector annihilated by `k` stays annihilated by `Tᵀ·k·T` after the
inverse rotation, for orthogonal `T`. -/
theorem congr_mulVec_zero (k T : Matrix (Fin 6) (Fin 6) ℚ) (hT : T * T.transpose = 1)
    (v : Fin 6 → ℚ) (hv : k.mulVec v = 0) :
    (T.transpose * k * T).mulVec (T.transpose.mulVec v) = 0 := by
  rw [Matrix.mulVec_mulVec, Matrix.mul_assoc (T.transpose * k) T T.transpose, hT,
    Matrix.mul_one, ← Matrix.mulVec_mulVec, hv, Matrix.mulVec_zero]

/-- Any combined rigid translation and rotation is annihilated locally. -/
theorem kLocal_mulVec_localRigid (ea ei L : ℚ) (hL : L ≠ 0) (tx tz th : ℚ) :
    (kLocal ea ei L).mulVec (localRigid L tx tz th) = 0 := by
  have h : localRigid L tx tz th =
      tx • localRigidBasis L 0 + (tz - th * L) • localRigidBasis L 1
        + th • localRigidBasis L 2 := by
    funext j
    fin_cases j <;>
      simp only [localRigid, localRigidBasis, Pi.add_apply, Pi.smul_apply, smul_eq_mul,
        vec6_zero, vec6_one, vec6_two, vec6_three, vec6_four, vec6_five, vec6_mk0,
        vec6_mk1, vec6_mk2, vec6_mk3, vec6_mk4, vec6_mk5, vec3_zero, vec3_one,
        vec3_two] <;>
      ring
  rw [h, Matrix.mulVec_add, Matrix.mulVec_add, Matrix.mulVec_smul, Matrix.mulVec_smul,
    Matrix.mulVec_smul, kLocal_mulVec_basis ea ei L hL 0, kLocal_mulVec_basis ea ei L hL 1,
    kLocal_mulVec_basis ea ei L hL 2]
  simp

/-- Exact kernel of the local stiffness matrix: the local rigid modes. -/
theorem kLocal_ker_iff (ea ei L : ℚ) (hea : 0 < ea) (hei : 0 < ei) (hL : 0 < L)
    (y : Fin 6 → ℚ) :
    (kLocal ea ei L).mulVec y = 0 ↔
      y = y 0 • localRigidBasis L 0 + y 4 • localRigidBasis L 1
        + y 2 • localRigidBasis L 2 := by
  have hL' : L ≠ 0 := ne_of_gt hL
  constructor
  · intro h
    have hQ : Matrix.dotProduct y ((kLocal ea ei L).mulVec y) = 0 := by
      rw [h, Matrix.dotProduct_zero]
    rw [kLocal_quadform ea ei L hL' y] at hQ
    have hA : 0 < ea / L := div_pos hea hL
    have hB : 0 < 3 * ei / L ^ 3 := by positivity
    have hC : 0 < ei / L := div_pos hei hL
    have n1 : 0 ≤ ea / L * (y 0 - y 3) ^ 2 := mul_nonneg hA.le (sq_nonneg _)
    have n2 : 0 ≤ 3 * ei / L ^ 3 * (2 * (y 1 - y 4) - L * (y 2 + y 5)) ^ 2 :=
      mul_nonneg hB.le (sq_nonneg _)
    have n3 : 0 ≤ ei / L * (y 2 - y 5) ^ 2 := mul_nonneg hC.le (sq_nonneg _)
    have z1 : ea / L * (y 0 - y 3) ^ 2 = 0 := by linarith
    have z2 : 3 * ei / L ^ 3 * (2 * (y 1 - y 4) - L * (y 2 + y 5)) ^ 2 = 0 := by linarith
    have z3 : ei / L * (y 2 - y 5) ^ 2 = 0 := by linarith
    have s1 : y 0 - y 3 = 0 :=
      sq_eq_zero_iff.mp ((mul_eq_zero.mp z1).resolve_left (ne_of_gt hA))
    have s2 : 2 * (y 1 - y 4) - L * (y 2 + y 5) = 0 :=
      sq_eq_zero_iff.mp ((mul_eq_zero.mp z2).resolve_left (ne_of_gt hB))
    have s3 : y 2 - y 5 = 0 :=
      sq_eq_zero_iff.mp ((mul_eq_zero.mp z3).resolve_left (ne_of_gt hC))
    have hy03 : y 3 = y 0 := by linarith
    have hy25 : y 5 = y 2 := by linarith
    have hLy : L * y 5 = L * y 2 := by rw [hy25]
    have hy14 : y 1 = y 4 + L * y 2 := by linarith
    funext j
    fin_cases j <;>
      simp only [Pi.add_apply, Pi.smul_apply, smul_eq_mul, localRigidBasis, vec6_zero,
        vec6_one, vec6_two, vec6_three, vec6_four, vec6_five, vec6_mk0, vec6_mk1, vec6_mk2,
        vec6_mk3, vec6_mk4, vec6_mk5, vec3_zero, vec3_one, vec3_two, fin6_mk0, fin6_mk1,
        fin6_mk2, fin6_mk3, fin6_mk4, fin6_mk5] <;>
      linarith [hy03, hy25, hy14]
  · intro h
    rw [h, Matrix.mulVec_add, Matrix.mulVec_add, Matrix.mulVec_smul, Matrix.mulVec_smul,
      Matrix.mulVec_smul, kLocal_mulVec_basis ea ei L hL' 0,
      kLocal_mulVec_basis ea ei L hL' 1, kLocal_mulVec_basis ea ei L hL' 2]
    simp

/-- C5: with positive section properties and length (and the construction
invariant that `T` is orthogonal), `stiffness()` returns a symmetric,
positive semi-definite matrix whose null space is exactly the span of the
three linearly independent rigid-body modes — dimension 3 — and every
combined rigid-body translation+rotation of the two nodes is annihilated
by it. -/
theorem stiffness_psd_nullspace (e : Element) (ea ei : ℚ) (hEA : e.EA = some ea)
    (hEI : e.EI = some ei) (hea : 0 < ea) (hei : 0 < ei) (hL : 0 < e.L)
    (hT : e.T * e.T.transpose = 1) :
    ∃ K, e.stiffness = some K ∧ K.transpose = K ∧
      (∀ x : Fin 6 → ℚ, 0 ≤ Matrix.dotProduct x (K.mulVec x)) ∧
      LinearMap.ker K.mulVecLin = Submodule.span ℚ (Set.range (rigidBasis e)) ∧
      Module.finrank ℚ (LinearMap.ker K.mulVecLin) = 3 ∧
      (∀ tx tz th : ℚ,
        K.mulVec (e.T.transpose.mulVec (localRigid e.L tx tz th)) = 0) := by
  have hT' : e.T.transpose * e.T = 1 := Matrix.mul_eq_one_comm.mp hT
  have hL' : e.L ≠ 0 := ne_of_gt hL
  have hTT : ∀ v : Fin 6 → ℚ, e.T.mulVec (e.T.transpose.mulVec v) = v := fun v => by
    rw [Matrix.mulVec_mulVec, hT, Matrix.one_mulVec]
  have hTT' : ∀ v : Fin 6 → ℚ, e.T.transpose.mulVec (e.T.mulVec v) = v := fun v => by
    rw [Matrix.mulVec_mulVec, hT', Matrix.one_mulVec]
  have hKmul : ∀ x : Fin 6 → ℚ,
      (e.T.transpose * kLocal ea ei e.L * e.T).mulVec x =
        e.T.transpose.mulVec ((kLocal ea ei e.L).mulVec (e.T.mulVec x)) := fun x => by
    rw [Matrix.mulVec_mulVec, Matrix.mulVec_mulVec]
  have hker : ∀ x : Fin 6 → ℚ,
      (e.T.transpose * kLocal ea ei e.L * e.T).mulVec x = 0 ↔
        x ∈ Submodule.span ℚ (Set.range (rigidBasis e)) := by
    intro x
    constructor
    · intro hx
      have hy : (kLocal ea ei e.L).mulVec (e.T.mulVec x) = 0 := by
        have h1 : e.T.mulVec ((e.T.transpose * kLocal ea ei e.L * e.T).mulVec x) =
            e.T.mulVec 0 := congrArg _ hx
        rw [Matrix.mulVec_zero, hKmul, hTT] at h1
        exact h1
      rw [kLocal_ker_iff ea ei e.L hea hei hL] at hy
      rw [mem_span_range_iff_exists_fun]
      refine ⟨![e.T.mulVec x 0, e.T.mulVec x 4, e.T.mulVec x 2], ?_⟩
      rw [Fin.sum_univ_three]
      simp only [vec3_zero, vec3_one, vec3_two, rigidBasis]
      rw [← Matrix.mulVec_smul, ← Matrix.mulVec_smul, ← Matrix.mulVec_smul,
        ← Matrix.mulVec_add, ← Matrix.mulVec_add, ← hy, hTT']
    · intro hx
      obtain ⟨c, hc⟩ := (mem_span_range_iff_exists_fun ℚ).mp hx
      rw [← hc, Fin.sum_univ_three, Matrix.mulVec_add, Matrix.mulVec_add,
        Matrix.mulVec_smul, Matrix.mulVec_smul, Matrix.mulVec_smul]
      have hz : ∀ i : Fin 3,
          (e.T.transpose * kLocal ea ei e.L * e.T).mulVec (rigidBasis e i) = 0 := by
        intro i
        show (e.T.transpose * kLocal ea ei e.L * e.T).mulVec
          (e.T.transpose.mulVec (localRigidBasis e.L i)) = 0
        exact congr_mulVec_zero _ _ hT _ (kLocal_mulVec_basis ea ei e.L hL' i)
      rw [hz 0, hz 1, hz 2]
      simp
  have hkerEq : LinearMap.ker (e.T.transpose * kLocal ea ei e.L * e.T).mulVecLin =
      Submodule.span ℚ (Set.range (rigidBasis e)) := by
    ext x
    simp only [LinearMap.mem_ker, Matrix.mulVecLin_apply]
    exact hker x
  refine ⟨e.T.transpose * kLocal ea ei e.L * e.T, ?_, ?_, ?_, hkerEq, ?_, ?_⟩
  · simp only [Element.stiffness, hEA, hEI]
  · simp [Matrix.transpose_mul, Matrix.mul_assoc, kLocal_transpose]
  · intro x
    have hform : Matrix.dotProduct x ((e.T.transpose * kLocal ea ei e.L * e.T).mulVec x) =
        Matrix.dotProduct (e.T.mulVec x) ((kLocal ea ei e.L).mulVec (e.T.mulVec x)) := by
      rw [hKmul, Matrix.dotProduct_mulVec, Matrix.vecMul_transpose]
    rw [hform, kLocal_quadform ea ei e.L hL']
    have n1 : (0 : ℚ) ≤ ea / e.L * (e.T.mulVec x 0 - e.T.mulVec x 3) ^ 2 :=
      mul_nonneg (div_pos hea hL).le (sq_nonneg _)
    have n2 : (0 : ℚ) ≤ 3 * ei / e.L ^ 3 *
        (2 * (e.T.mulVec x 1 - e.T.mulVec x 4) -
          e.L * (e.T.mulVec x 2 + e.T.mulVec x 5)) ^ 2 :=
      mul_nonneg (by positivity) (sq_nonneg _)
    have n3 : (0 : ℚ) ≤ ei / e.L * (e.T.mulVec x 2 - e.T.mulVec x 5) ^ 2 :=
      mul_nonneg (div_pos hei hL).le (sq_nonneg _)
    exact add_nonneg (add_nonneg n1 n2) n3
  · have hli : LinearIndependent ℚ (rigidBasis e) := by
      rw [Fintype.linearIndependent_iff]
      intro g hg
      have hg' : ∑ i : Fin 3, g i • localRigidBasis e.L i = 0 := by
        have h1 : e.T.mulVec (∑ i : Fin 3, g i • rigidBasis e i) = e.T.mulVec 0 :=
          congrArg _ hg
        rw [Matrix.mulVec_zero] at h1
        rw [← h1, Fin.sum_univ_three, Fin.sum_univ_three]
        show g 0 • localRigidBasis e.L 0 + g 1 • localRigidBasis e.L 1
            + g 2 • localRigidBasis e.L 2 =
          e.T.mulVec (g 0 • e.T.transpose.mulVec (localRigidBasis e.L 0)
            + g 1 • e.T.transpose.mulVec (localRigidBasis e.L 1)
            + g 2 • e.T.transpose.mulVec (localRigidBasis e.L 2))
        rw [Matrix.mulVec_add, Matrix.mulVec_add, Matrix.mulVec_smul, Matrix.mulVec_smul,
          Matrix.mulVec_smul, hTT, hTT, hTT]
      rw [Fin.sum_univ_three] at hg'
      have c0 := congrFun hg' 0
      have c2 := congrFun hg' 2
      have c4 := congrFun hg' 4
      simp only [Pi.add_apply, Pi.smul_apply, smul_eq_mul, localRigidBasis, vec3_zero,
        vec3_one, vec3_two, vec6_zero, vec6_two, vec6_four, Pi.zero_apply, mul_one,
        mul_zero, add_zero, zero_add] at c0 c2 c4
      intro i
      fin_cases i
      · exact c0
      · exact c4
      · exact c2
    rw [hkerEq, finrank_span_eq_card hli]
    simp
  · intro tx tz th
    exact congr_mulVec_zero _ _ hT _ (kLocal_mulVec_localRigid ea ei e.L hL' tx tz th)

/-- Witness for C5 at the concrete element `sampleElem`. -/
theorem stiffness_psd_nullspace_witness :
    ∃ K, sampleElem.stiffness = some K ∧ K.transpose = K ∧
      (∀ x : Fin 6 → ℚ, 0 ≤ Matrix.dotProduct x (K.mulVec x)) ∧
      LinearMap.ker K.mulVecLin = Submodule.span ℚ (Set.range (rigidBasis sampleElem)) ∧
      Module.finrank ℚ (LinearMap.ker K.mulVecLin) = 3 ∧
      (∀ tx tz th : ℚ,
        K.mulVec (sampleElem.T.transpose.mulVec
          (localRigid sampleElem.L tx tz th)) = 0) :=
  stiffness_psd_nullspace sampleElem (10 ^ 7) (2 * 10 ^ 5) rfl rfl (by norm_num)
    (by norm_num) (by show (0 : ℚ) < 5; norm_num)
    (by rw [sampleElem_T]; exact mkT_mul_transpose 1 0 (by norm_num))

end MatrixMethod
